import Mathlib

/-!
Verification development for the resume-parsing pipeline of `src/app_v2.py`
(PDF resume parser: field extraction and master-CSV merge).

The embedding is shallow: document text is a `List Char` / `String`, the
regex calls `re.findall` are modelled by explicit left-to-right scanners
with the exact matching semantics of the two concrete patterns used by the
program, the pandas CSV store is modelled at cell granularity with
per-column dtype inference (the default NA-marker conversion, the
numeric and boolean column coercions performed by `pd.read_csv`, and the
empty `na_rep` of `DataFrame.to_csv`), and the Streamlit control flow of
one upload is a pure state-passing function.
-/

namespace ResumeApp

/-- Python whitespace characters, the complement of the regex class
of non-space characters used in the email pattern of `app_v2.py` line 81
(restricted to the ASCII range; the documents at issue are ASCII). -/
def isSpaceCh (c : Char) : Bool :=
  c = ' ' || c = '\t' || c = '\n' || c = '\r' || c = '\x0b' || c = '\x0c'

/-- Lower-casing of a character list, modelling Python `str.lower()`
on ASCII text (used in `app_v2.py` lines 87 and 92). -/
def lowerL (l : List Char) : List Char := l.map Char.toLower

/-- `startsWithL n l` is true when `n` is an initial segment of `l`;
the building block of Python substring containment. -/
def startsWithL : List Char → List Char → Bool
  | [], _ => true
  | _ :: _, [] => false
  | a :: as, b :: bs => a == b && startsWithL as bs

/-- `containsSub needle hay` models the Python substring operator
`needle in hay`: some contiguous run of `hay` equals `needle`. -/
def containsSub (needle : List Char) : List Char → Bool
  | [] => needle.isEmpty
  | c :: t => startsWithL needle (c :: t) || containsSub needle t

/-- Python `str.split('\n')` (`app_v2.py` lines 89 and 91): split on every
newline, keeping empty pieces, so the empty text yields one empty line. -/
def splitLinesAux (acc : List Char) : List Char → List (List Char)
  | [] => [acc.reverse]
  | c :: t => if c = '\n' then acc.reverse :: splitLinesAux [] t
              else splitLinesAux (c :: acc) t

/-- All physical lines of a text, as in `all_text.split('\n')`. -/
def splitLines (l : List Char) : List (List Char) := splitLinesAux [] l

/-- Python `str.strip()`: drop whitespace from both ends of the line. -/
def pyStrip (l : List Char) : List Char :=
  ((l.dropWhile isSpaceCh).reverse.dropWhile isSpaceCh).reverse

/-- Greedy digit scan with a cap: take at most `n` leading decimal digits,
returning the digits taken and the rest of the input.  This is the
behaviour of the greedy quantifier `d{10,12}` of the phone pattern
(`app_v2.py` line 82) once the cap is set to 12. -/
def takeDigitsUpTo : Nat → List Char → List Char × List Char
  | 0, l => ([], l)
  | _ + 1, [] => ([], [])
  | n + 1, c :: t =>
    if c.isDigit then
      let p := takeDigitsUpTo n t
      (c :: p.1, p.2)
    else ([], c :: t)

/-- One anchored attempt of the phone pattern (an optional leading plus
sign followed by 10 to 12 digits, `app_v2.py` line 82) at the start of the
input, with Python `re` semantics: the optional plus is tried greedily,
and when fewer than 10 digits follow the plus, backtracking retries the
alternative without it, which fails at once because a plus sign is not a
digit.  On success the match and the unconsumed rest are returned. -/
def tryMatchPhone (l : List Char) : Option (List Char × List Char) :=
  match l with
  | [] => none
  | c :: t =>
    if c = '+' then
      let p := takeDigitsUpTo 12 t
      if 10 ≤ p.1.length then some (c :: p.1, p.2) else none
    else
      let p := takeDigitsUpTo 12 (c :: t)
      if 10 ≤ p.1.length then some (p.1, p.2) else none

/-- The left-to-right non-overlapping scan of `re.findall` for the phone
pattern: at each position try an anchored match; on success emit it and
resume after it, otherwise advance one character.  The fuel argument is a
step bound (each step consumes at least one character). -/
def scanPhonesAux : Nat → List Char → List (List Char)
  | 0, _ => []
  | _ + 1, [] => []
  | fuel + 1, c :: t =>
    match tryMatchPhone (c :: t) with
    | some (m, r) => m :: scanPhonesAux fuel r
    | none => scanPhonesAux fuel t

/-- `re.findall(r'\+?\d{10,12}', text)` of `app_v2.py` line 82. -/
def findPhones (text : String) : List String :=
  (scanPhonesAux text.data.length text.data).map String.mk

/-- Does a maximal non-space token contain an interior at-sign, i.e. one
that is neither its first nor its last character?  This is exactly the
condition under which the email pattern (one or more non-space characters,
an at-sign, one or more non-space characters) matches starting at the
beginning of the token, and then the greedy match is the whole token. -/
def hasInnerAt (tok : List Char) : Bool := ((tok.drop 1).dropLast).contains '@'

/-- One anchored attempt of the email pattern of `app_v2.py` line 81 at
the start of the input.  Under Python `re` backtracking, the first greedy
non-space group retreats to the last at-sign of the maximal non-space run
that still leaves a non-space character after it; the match, when it
exists, is therefore the entire run. -/
def tryMatchEmail (l : List Char) : Option (List Char × List Char) :=
  let tok := l.takeWhile (fun c => !(isSpaceCh c))
  if hasInnerAt tok then some (tok, l.drop tok.length) else none

/-- The `re.findall` scan for the email pattern (advance by one character
on failure, by the match on success; a token that fails to match from its
first character also fails from every interior position, so the
character-by-character advance is faithful). -/
def scanEmailsAux : Nat → List Char → List (List Char)
  | 0, _ => []
  | _ + 1, [] => []
  | fuel + 1, c :: t =>
    match tryMatchEmail (c :: t) with
    | some (m, r) => m :: scanEmailsAux fuel r
    | none => scanEmailsAux fuel t

/-- `re.findall(r'\S+@\S+', text)` of `app_v2.py` line 81. -/
def findEmails (text : String) : List String :=
  (scanEmailsAux text.data.length text.data).map String.mk

/-- The fixed skill vocabulary of `app_v2.py` lines 83 to 86. -/
def skillsVocab : List String :=
  ["Python", "Java", "PHP", "SQL", "Pandas", "NumPy",
   "Matplotlib", "Seaborn", "Tableau", "Machine Learning",
   "Deep Learning", "HTML", "CSS", "JavaScript", "Statistics",
   "Logistic Regression", "Random Forest", "KNN", "SVR"]

/-- `found_skills` of `app_v2.py` line 87: keep each vocabulary entry
whose lower-cased form is a substring of the lower-cased document text. -/
def foundSkills (text : String) : List String :=
  skillsVocab.filter (fun sk => containsSub (lowerL sk.data) (lowerL text.data))

/-- The education keyword set of `app_v2.py` line 88. -/
def educationKeywords : List String :=
  ["Bachelors", "Masters", "+2", "School", "College", "University"]

/-- The projects keyword set of `app_v2.py` line 90. -/
def projectsKeywords : List String :=
  ["Project", "PROJECT", "projects", "ACADEMIC PROJECTS", "Mini Projects"]

/-- `any(k in line for k in kws)`: does some keyword occur in the line? -/
def anyKw (kws : List String) (line : List Char) : Bool :=
  kws.any (fun k => containsSub k.data line)

/-- `education_lines` of `app_v2.py` line 89: every physical line of the
text containing an education keyword, stripped, in original order. -/
def educationLines (text : String) : List String :=
  ((splitLines text.data).filter (anyKw educationKeywords)).map
    (fun l => String.mk (pyStrip l))

/-- `projects_lines` of `app_v2.py` line 91. -/
def projectsLines (text : String) : List String :=
  ((splitLines text.data).filter (anyKw projectsKeywords)).map
    (fun l => String.mk (pyStrip l))

/-- The interface of the external NLP collaborator (spaCy): the entities
with their category label, in engine order, and the sentence spans. -/
structure NLPAnalysis where
  ents : List (String × String)
  sents : List String

/-- `names` of `app_v2.py` line 79: the texts of the entities whose
label is PERSON, in engine order. -/
def personNames (a : NLPAnalysis) : List String :=
  (a.ents.filter (fun e => e.2 == "PERSON")).map (fun e => e.1)

/-- `profile_sentences` of `app_v2.py` line 92: sentences whose
lower-cased text contains "passionate" or "skilled", stripped. -/
def profileSentences (a : NLPAnalysis) : List String :=
  (a.sents.filter (fun s =>
      containsSub "passionate".data (lowerL s.data) ||
      containsSub "skilled".data (lowerL s.data))).map
    (fun s => String.mk (pyStrip s.data))

/-- The fixed-shape record derived from one document
(`resume_dict` keys, `app_v2.py` lines 105 to 113). -/
structure ParsedRecord where
  name : String
  emails : String
  phones : String
  skills : String
  education : String
  projects : String
  profile : String
deriving DecidableEq

/-- The joined document text: `"\n\n".join(all_text_parts)` of
`app_v2.py` line 68, at character level. -/
def assembleChars : List String → List Char
  | [] => []
  | [p] => p.data
  | p :: q :: ps => p.data ++ '\n' :: '\n' :: assembleChars (q :: ps)

/-- The assembled document text as a string. -/
def assembleText (pages : List String) : String := String.mk (assembleChars pages)

/-- The persisted record of `app_v2.py` lines 105 to 113: every group is
joined and falls back to the empty string when no match was found, except
`Name`, which carries the `names[0] if names else "N/A"` value of line 80
unchanged. -/
def resumeDict (text : String) (a : NLPAnalysis) : ParsedRecord :=
  { name := (personNames a).headD "N/A"
  , emails := if (findEmails text).isEmpty then "" else String.intercalate ", " (findEmails text)
  , phones := if (findPhones text).isEmpty then "" else String.intercalate ", " (findPhones text)
  , skills := if (foundSkills text).isEmpty then "" else String.intercalate ", " (foundSkills text)
  , education := if (educationLines text).isEmpty then "" else String.intercalate "\n" (educationLines text)
  , projects := if (projectsLines text).isEmpty then "" else String.intercalate "\n" (projectsLines text)
  , profile := if (profileSentences a).isEmpty then "" else String.intercalate "\n" (profileSentences a) }

/-- The displayed record of `app_v2.py` lines 96 to 102: identical to the
persisted one except that each empty group is shown as "N/A". -/
def displayRecord (text : String) (a : NLPAnalysis) : ParsedRecord :=
  { name := (personNames a).headD "N/A"
  , emails := if (findEmails text).isEmpty then "N/A" else String.intercalate ", " (findEmails text)
  , phones := if (findPhones text).isEmpty then "N/A" else String.intercalate ", " (findPhones text)
  , skills := if (foundSkills text).isEmpty then "N/A" else String.intercalate ", " (foundSkills text)
  , education := if (educationLines text).isEmpty then "N/A" else String.intercalate "\n" (educationLines text)
  , projects := if (projectsLines text).isEmpty then "N/A" else String.intercalate "\n" (projectsLines text)
  , profile := if (profileSentences a).isEmpty then "N/A" else String.intercalate "\n" (profileSentences a) }

/-- The default NA markers of `pd.read_csv` (pandas `io.parsers`):
a CSV field equal to one of these strings is loaded as a missing value
(NaN), since `app_v2.py` line 119 calls `pd.read_csv` with no
`na_values`/`keep_default_na` arguments. -/
def naValues : List String :=
  ["", "#N/A", "#N/A N/A", "#NA", "-1.#IND", "-1.#QNAN", "-NaN", "-nan",
   "1.#IND", "1.#QNAN", "<NA>", "N/A", "NA", "NULL", "NaN", "None",
   "n/a", "nan", "null"]

/-- `!l.isEmpty && l.all Char.isDigit`: one or more decimal digits. -/
def isDigits (l : List Char) : Bool := !l.isEmpty && l.all Char.isDigit

/-- Drop one optional leading sign character. -/
def stripSign : List Char → List Char
  | '+' :: t => t
  | '-' :: t => t
  | l => l

/-- Drop whitespace from both ends (the numeric converters of pandas'
tokenizer skip surrounding whitespace; over-approximated here with the
full whitespace class). -/
def trimSpaces (l : List Char) : List Char :=
  ((l.dropWhile isSpaceCh).reverse.dropWhile isSpaceCh).reverse

/-- Split at the first character satisfying `p`: the part before it, and
the part after it when one was found. -/
def splitFirst (p : Char → Bool) : List Char → List Char × Option (List Char)
  | [] => ([], none)
  | c :: t =>
    if p c then ([], some t)
    else
      let r := splitFirst p t
      (c :: r.1, r.2)

/-- A decimal mantissa: digits, or digits around one decimal point with
at least one digit present. -/
def mantissaOK (l : List Char) : Bool :=
  match splitFirst (fun c => c = '.') l with
  | (a, none) => isDigits a
  | (a, some b) => a.all Char.isDigit && b.all Char.isDigit && (!a.isEmpty || !b.isEmpty)

/-- A mantissa with an optional exponent part. -/
def floatBodyOK (l : List Char) : Bool :=
  match splitFirst (fun c => c = 'e' || c = 'E') l with
  | (m, none) => mantissaOK m
  | (m, some ex) => mantissaOK m && isDigits (stripSign ex)

/-- Texts that `pd.read_csv`'s tokenizer converts to a numeric value when
a whole column consists of them: optional surrounding whitespace, an
optional sign, and a decimal mantissa with optional exponent, or an
infinity literal.  This deliberately over-approximates the tokenizer
(e.g. in whitespace handling and letter case), which only narrows the
stability hypotheses below, never widens them. -/
def pdNumericText (s : String) : Bool :=
  let body := stripSign (trimSpaces s.data)
  floatBodyOK body || lowerL body = "inf".data || lowerL body = "infinity".data

/-- Texts that `pd.read_csv`'s tokenizer converts to a boolean when a
whole column consists of them ("True"/"true"/"TRUE" and the "False"
forms; letter case over-approximated). -/
def pdBoolText (s : String) : Bool :=
  lowerL s.data = "true".data || lowerL s.data = "false".data

/-- The numeric value of the digit list. -/
def digitsToNat (l : List Char) : Nat :=
  l.foldl (fun acc c => acc * 10 + (c.toNat - '0'.toNat)) 0

/-- The integer value of a text of the exact integer form the tokenizer's
int converter accepts: optional surrounding whitespace, an optional sign,
then one or more digits; `none` for any other text. -/
def pdIntVal (s : String) : Option Int :=
  match trimSpaces s.data with
  | '+' :: t => if isDigits t then some (digitsToNat t) else none
  | '-' :: t => if isDigits t then some (-(digitsToNat t : Int)) else none
  | t => if isDigits t then some (digitsToNat t) else none

/-- Fits pandas' int64 column type. -/
def intFitsI64 (n : Int) : Bool := -(2 ^ 63) ≤ n && n ≤ 2 ^ 63 - 1

/-- Fits pandas' uint64 column type (the fallback for non-negative
columns overflowing int64). -/
def intFitsU64 (n : Int) : Bool := 0 ≤ n && n ≤ 2 ^ 64 - 1

/-- A loaded DataFrame cell: a missing value (NaN), a string, an integer
of an int64/uint64-typed column, a value of a float64-typed column, or a
boolean.  For float cells the IEEE value and to_csv's float formatting
are not modelled (floating point); the source text is carried instead,
and no theorem in this file concerns float-typed columns — the stability
hypotheses below exclude numeric text altogether. -/
inductive Cell where
  | na
  | str (s : String)
  | intval (n : Int)
  | floatval (text : String)
  | boolval (b : Bool)
deriving DecidableEq

/-- The column type `pd.read_csv` infers for one column. -/
inductive ColTy where
  | obj
  | intcol
  | floatcol
  | boolcol
deriving DecidableEq

/-- An all-integer column within one machine-integer range. -/
def intColOK (vals : List String) : Bool :=
  vals.all (fun s => (pdIntVal s).isSome) &&
    (vals.all (fun s => intFitsI64 ((pdIntVal s).getD 0)) ||
     vals.all (fun s => intFitsU64 ((pdIntVal s).getD 0)))

/-- Per-column dtype inference of `pd.read_csv` (`app_v2.py` line 119):
a column whose non-NA entries all parse numerically becomes int64/uint64
when they are all in-range integers and no NA is present (an NA forces
float64, as does any fractional/exponent/overflowing entry); a column of
boolean literals becomes bool; every other column is object and its
entries stay strings. -/
def colType (entries : List String) : ColTy :=
  let vals := entries.filter (fun s => !(decide (s ∈ naValues)))
  if vals.isEmpty then ColTy.floatcol
  else if vals.all pdNumericText then
    if entries.any (fun s => decide (s ∈ naValues)) then ColTy.floatcol
    else if intColOK vals then ColTy.intcol
    else ColTy.floatcol
  else if vals.all pdBoolText then ColTy.boolcol
  else ColTy.obj

/-- A DataFrame row, in the fixed column order
Name, Emails, Phones, Skills, Education, Projects, Profile. -/
abbrev TableRow := List Cell

/-- The in-memory master table: a sequence of rows. -/
abbrev Table := List TableRow

/-- A persisted CSV row: the textual fields of one record line
(CSV quoting is value-preserving and is abstracted away). -/
abbrev StoredRow := List String

/-- The persisted master CSV body, one stored row per record. -/
abbrev StoredTable := List StoredRow

/-- `DataFrame.to_csv` at cell level (`app_v2.py` line 125): a string
cell is written as its text, a missing value as the default `na_rep`
(the empty string), an integer as its canonical decimal text, a boolean
as "True"/"False"; for float cells see `Cell`. -/
def persistCell : Cell → String
  | .na => ""
  | .str s => s
  | .intval n => toString n
  | .floatval text => text
  | .boolval b => if b then "True" else "False"

/-- One cell of `pd.read_csv` (`app_v2.py` line 119), given the inferred
type of its column: an NA-marker field loads as missing whatever the
column type, and otherwise the field is converted per the column type. -/
def loadEntry (t : ColTy) (s : String) : Cell :=
  if s ∈ naValues then Cell.na
  else match t with
    | .obj => Cell.str s
    | .intcol => Cell.intval ((pdIntVal s).getD 0)
    | .floatcol => Cell.floatval s
    | .boolcol => Cell.boolval (lowerL s.data = "true".data)

/-- The entries of column `j` across the stored table. -/
def colEntries (f : StoredTable) (j : Nat) : List String :=
  f.map (fun row => row.getD j "")

/-- Load the fields of one stored row starting at column index `j`,
typing each field by its column's inferred dtype. -/
def loadRowAt (f : StoredTable) : Nat → List String → List Cell
  | _, [] => []
  | j, s :: rest => loadEntry (colType (colEntries f j)) s :: loadRowAt f (j + 1) rest

/-- Persist a whole row. -/
def persistRow (r : TableRow) : StoredRow := r.map persistCell

/-- Persist a whole table (`df_combined.to_csv`, line 125). -/
def persistTable (t : Table) : StoredTable := t.map persistRow

/-- Load a whole stored table (`pd.read_csv(MASTER_CSV)`, line 119),
with per-column dtype inference. -/
def loadTable (f : StoredTable) : Table := f.map (loadRowAt f 0)

/-- The one-row DataFrame `pd.DataFrame([resume_dict])` of line 115:
the seven fields of the record as string cells, in column order. -/
def recordToRow (r : ParsedRecord) : TableRow :=
  [Cell.str r.name, Cell.str r.emails, Cell.str r.phones, Cell.str r.skills,
   Cell.str r.education, Cell.str r.projects, Cell.str r.profile]

/-- The merge of `app_v2.py` lines 118 to 122: with no prior table the
result is the one-row table of the new record, otherwise
`pd.concat([df_master, df_new], ignore_index=True)`, the prior rows
followed by the new row. -/
def mergeTable : Option Table → TableRow → Table
  | none, r => [r]
  | some t, r => t ++ [r]

/-- `df_combined` of one upload given the state of the master CSV file
(`app_v2.py` lines 115 to 122): the loaded prior table, if the file
exists, merged with the new record's row. -/
def dfCombinedStep (file : Option StoredTable) (r : ParsedRecord) : Table :=
  mergeTable (file.map loadTable) (recordToRow r)

/-- The master CSV file after one upload (`app_v2.py` lines 118 to 125):
the combined table written back with `to_csv`. -/
def uploadStep (file : Option StoredTable) (r : ParsedRecord) : Option StoredTable :=
  some (persistTable (dfCombinedStep file r))

/-- The file state after a sequence of uploads, starting from a given
file state (initially no file exists). -/
def runUploads (file : Option StoredTable) : List ParsedRecord → Option StoredTable
  | [] => file
  | r :: rs => runUploads (uploadStep file r) rs

/-- The `df_combined` table produced by the last upload of the nonempty
sequence `r :: rs`, starting from file state `file`: the MasterTable as
the program displays and exports it after that upload. -/
def lastCombined (file : Option StoredTable) (r : ParsedRecord) : List ParsedRecord → Table
  | [] => dfCombinedStep file r
  | r2 :: rs => lastCombined (uploadStep file r) r2 rs

/-- The MasterTable visible after the last of the uploads `r :: rs`,
starting with no master CSV file. -/
def masterAfter (r : ParsedRecord) (rs : List ParsedRecord) : Table :=
  lastCombined none r rs

/-- One whole upload (`app_v2.py` lines 41 to 125) as a state-passing
function.  The input is the outcome of `PdfReader` on the uploaded bytes:
an error when the bytes are not a well-formed document, otherwise the
page texts together with the spaCy analysis of the assembled text.  On a
parse failure the program reports the error and stops (lines 44 to 46)
before the master CSV is ever read, appended to, or written: no record is
produced and the file state is returned untouched.  On success the record
is extracted, merged, and the combined table persisted. -/
def runUpload (parsed : Except String (List String × NLPAnalysis))
    (file : Option StoredTable) : Option (ParsedRecord × Table) × Option StoredTable :=
  match parsed with
  | .error _ => (none, file)
  | .ok (pages, a) =>
    let r := resumeDict (assembleText pages) a
    let t := dfCombinedStep file r
    (some (r, t), some (persistTable t))

/-- A field text the store leaves untouched: not a pandas NA marker
(which would load as missing), not numeric text (which dtype inference
would coerce, dropping a leading '+' or leading zeros and reformatting
floats), and not a boolean literal (which would be coerced to a bool). -/
def stableText (s : String) : Prop :=
  s ∉ naValues ∧ pdNumericText s = false ∧ pdBoolText s = false

/-- A cell whose persisted form loads back to the same cell in any table
whose other cells are equally stable: a missing value (written as "" and
re-read as missing whatever the column type), or a string with stable
text.  Typed cells only arise from loading and are not stable. -/
def cellStable : Cell → Prop
  | .na => True
  | .str s => stableText s
  | .intval _ => False
  | .floatval _ => False
  | .boolval _ => False

/-- A record each of whose seven field values is stable text. -/
def recordStable (r : ParsedRecord) : Prop :=
  stableText r.name ∧ stableText r.emails ∧ stableText r.phones ∧
  stableText r.skills ∧ stableText r.education ∧ stableText r.projects ∧
  stableText r.profile

instance (s : String) : Decidable (stableText s) := by
  unfold stableText; infer_instance

instance (c : Cell) : Decidable (cellStable c) := by
  cases c <;> (unfold cellStable; infer_instance)

instance (r : ParsedRecord) : Decidable (recordStable r) := by
  unfold recordStable; infer_instance

/-- The number of record rows held by the master CSV file (zero when the
file does not exist). -/
def fileRows : Option StoredTable → Nat
  | none => 0
  | some t => t.length

/-- A digit block admissible for the phone pattern: 10 to 12 decimal
digits (the quantifier bounds of `app_v2.py` line 82). -/
def phoneTokenOK (ds : List Char) : Prop :=
  (∀ c ∈ ds, c.isDigit = true) ∧ 10 ≤ ds.length ∧ ds.length ≤ 12

/-- A string of the form the phone pattern describes: an optional leading
plus sign followed by 10 to 12 consecutive digits. -/
def phoneMatchOK (m : List Char) : Prop :=
  (∃ ds, m = '+' :: ds ∧ phoneTokenOK ds) ∨ phoneTokenOK m

/-- A string of the form the email pattern describes: one or more
non-whitespace characters, an at-sign, one or more non-whitespace
characters. -/
def emailMatchOK (m : List Char) : Prop :=
  ∃ a b, m = a ++ '@' :: b ∧ a ≠ [] ∧ b ≠ [] ∧ ∀ c ∈ m, isSpaceCh c = false

/-- The master CSV file produced by a (possibly empty) sequence of prior
uploads whose combined tables, row for row, were the rows of the given
records: absent for no prior upload, else the persisted rows. -/
def priorFile : List ParsedRecord → Option StoredTable
  | [] => none
  | rs@(_ :: _) => some (persistTable (rs.map recordToRow))

/-- The record the program derives from an upload whose document text is
empty and for which the NLP engine reports no entities and no sentences:
every group is empty, so every field holds its persisted fallback. -/
def emptyUploadRecord : ParsedRecord := resumeDict "" ⟨[], []⟩

/-- A fully populated record, none of whose fields is a pandas NA marker,
numeric text, or a boolean literal; used to exercise the store on
stable data.  (A single bare phone number would be numeric text and be
coerced to an integer column; the comma-joined list of two is not.) -/
def sampleRecordA : ParsedRecord :=
  { name := "Alice Smith", emails := "alice@example.com"
  , phones := "9876543210, 9123456780", skills := "Python, SQL"
  , education := "Springfield University", projects := "Project Alpha"
  , profile := "Passionate engineer." }

/-- A second stable record. -/
def sampleRecordB : ParsedRecord :=
  { name := "Bob Jones", emails := "bob@example.com"
  , phones := "+919876543210, 9876543210", skills := "Java"
  , education := "Shelbyville College", projects := "Mini Projects"
  , profile := "Skilled analyst." }

/-! ### Helper lemmas on the character-level utilities -/

theorem mem_of_startsWithL : ∀ {n l : List Char}, startsWithL n l = true →
    ∀ c ∈ n, c ∈ l := by
  intro n
  induction n with
  | nil => intro l _ c hc; cases hc
  | cons a as ih =>
    intro l h c hc
    cases l with
    | nil => simp [startsWithL] at h
    | cons b bs =>
      rw [startsWithL, Bool.and_eq_true, beq_iff_eq] at h
      rcases List.mem_cons.mp hc with rfl | hc
      · exact h.1 ▸ List.mem_cons_self b bs
      · exact List.mem_cons_of_mem b (ih h.2 c hc)

theorem mem_of_containsSub : ∀ {h n : List Char}, containsSub n h = true →
    ∀ c ∈ n, c ∈ h := by
  intro h
  induction h with
  | nil =>
    intro n hc c hcn
    rw [containsSub, List.isEmpty_iff] at hc
    subst hc; cases hcn
  | cons b bs ih =>
    intro n hc c hcn
    rw [containsSub, Bool.or_eq_true] at hc
    rcases hc with h1 | h2
    · exact mem_of_startsWithL h1 c hcn
    · exact List.mem_cons_of_mem b (ih h2 c hcn)

theorem containsSub_eq_false (n : List Char) {h : List Char} (c0 : Char) (hc0 : c0 ∈ n)
    (hne : c0 ≠ '\n') (hh : ∀ c ∈ h, c = '\n') : containsSub n h = false := by
  cases hb : containsSub n h with
  | false => rfl
  | true => exact absurd (hh c0 (mem_of_containsSub hb c0 hc0)) hne

theorem splitLinesAux_all_newline : ∀ {l : List Char}, (∀ c ∈ l, c = '\n') →
    ∀ line ∈ splitLinesAux [] l, line = [] := by
  intro l
  induction l with
  | nil =>
    intro _ line hline
    rw [splitLinesAux] at hline
    simpa using hline
  | cons c t ih =>
    intro hall line hline
    have hc : c = '\n' := hall c (List.mem_cons_self c t)
    rw [splitLinesAux, if_pos hc] at hline
    rcases List.mem_cons.mp hline with h | h
    · simpa using h
    · exact ih (fun d hd => hall d (List.mem_cons_of_mem c hd)) line h

theorem splitLines_all_newline {l : List Char} (h : ∀ c ∈ l, c = '\n') :
    ∀ line ∈ splitLines l, line = [] :=
  splitLinesAux_all_newline h

theorem assembleChars_all_newline : ∀ {pages : List String},
    (∀ p ∈ pages, p = "") → ∀ c ∈ assembleChars pages, c = '\n' := by
  intro pages
  induction pages with
  | nil => intro _ c hc; cases hc
  | cons p ps ih =>
    intro hall c hc
    have hp : p = "" := hall p (List.mem_cons_self p ps)
    cases ps with
    | nil =>
      rw [assembleChars, hp] at hc
      cases hc
    | cons q ps' =>
      rw [assembleChars, hp] at hc
      have hc' : c ∈ '\n' :: '\n' :: assembleChars (q :: ps') := by simpa using hc
      rcases List.mem_cons.mp hc' with rfl | hc'
      · rfl
      · rcases List.mem_cons.mp hc' with rfl | hc'
        · rfl
        · exact ih (fun d hd => hall d (List.mem_cons_of_mem p hd)) c hc'

/-! ### The phone scanner -/

theorem takeDigitsUpTo_not_digit {n : Nat} {c : Char} {t : List Char}
    (hc : c.isDigit = false) : takeDigitsUpTo n (c :: t) = ([], c :: t) := by
  cases n with
  | zero => rfl
  | succ m => simp [takeDigitsUpTo, hc]

theorem takeDigitsUpTo_spec : ∀ (n : Nat) (l : List Char),
    l = (takeDigitsUpTo n l).1 ++ (takeDigitsUpTo n l).2 ∧
    (∀ c ∈ (takeDigitsUpTo n l).1, c.isDigit = true) ∧
    (takeDigitsUpTo n l).1.length ≤ n := by
  intro n
  induction n with
  | zero => intro l; refine ⟨rfl, ?_, ?_⟩ <;> simp [takeDigitsUpTo]
  | succ m ih =>
    intro l
    cases l with
    | nil => refine ⟨?_, ?_, ?_⟩ <;> simp [takeDigitsUpTo]
    | cons c t =>
      by_cases hc : c.isDigit = true
      · have e : takeDigitsUpTo (m + 1) (c :: t) =
            (c :: (takeDigitsUpTo m t).1, (takeDigitsUpTo m t).2) := by
          simp [takeDigitsUpTo, hc]
        obtain ⟨h1, h2, h3⟩ := ih t
        refine ⟨?_, ?_, ?_⟩ <;> rw [e]
        · exact congrArg (c :: ·) h1
        · intro d hd
          rcases List.mem_cons.mp hd with rfl | hd
          · exact hc
          · exact h2 d hd
        · simpa using h3
      · have hc' : c.isDigit = false := by simpa using hc
        rw [takeDigitsUpTo_not_digit hc']
        exact ⟨rfl, by simp, by simp⟩

theorem takeDigitsUpTo_full : ∀ (n : Nat) (l : List Char),
    n ≤ l.length → (∀ c ∈ l.take n, c.isDigit = true) →
    takeDigitsUpTo n l = (l.take n, l.drop n) := by
  intro n
  induction n with
  | zero => intro l _ _; simp [takeDigitsUpTo]
  | succ m ih =>
    intro l hlen hdig
    cases l with
    | nil => simp at hlen
    | cons c t =>
      have hc : c.isDigit = true := hdig c (by simp)
      have ht : takeDigitsUpTo m t = (t.take m, t.drop m) := by
        apply ih
        · simpa using Nat.le_of_succ_le_succ (by simpa using hlen)
        · intro d hd
          exact hdig d (by simpa using List.mem_cons_of_mem c (by simpa using hd))
      simp [takeDigitsUpTo, hc, ht]

theorem tryMatchPhone_none {c : Char} {t : List Char} (hd : c.isDigit = false)
    (hp : c ≠ '+') : tryMatchPhone (c :: t) = none := by
  simp [tryMatchPhone, hp, takeDigitsUpTo_not_digit hd]

theorem tryMatchPhone_some : ∀ {l m r : List Char}, tryMatchPhone l = some (m, r) →
    l = m ++ r ∧ phoneMatchOK m := by
  intro l m r h
  cases l with
  | nil => simp [tryMatchPhone] at h
  | cons c t =>
    obtain ⟨hsplit, hdig, hle⟩ := takeDigitsUpTo_spec 12 t
    obtain ⟨hsplit', hdig', hle'⟩ := takeDigitsUpTo_spec 12 (c :: t)
    by_cases hc : c = '+'
    · rw [tryMatchPhone, if_pos hc] at h
      by_cases hlen : 10 ≤ (takeDigitsUpTo 12 t).1.length
      · rw [if_pos hlen] at h
        obtain ⟨hm, hr⟩ := Prod.mk.injEq .. ▸ Option.some.injEq .. ▸ h
        subst hm; subst hr
        constructor
        · exact congrArg (c :: ·) hsplit
        · exact Or.inl ⟨_, by rw [hc], hdig, hlen, hle⟩
      · rw [if_neg hlen] at h; cases h
    · rw [tryMatchPhone, if_neg hc] at h
      by_cases hlen : 10 ≤ (takeDigitsUpTo 12 (c :: t)).1.length
      · rw [if_pos hlen] at h
        obtain ⟨hm, hr⟩ := Prod.mk.injEq .. ▸ Option.some.injEq .. ▸ h
        subst hm; subst hr
        exact ⟨hsplit', Or.inr ⟨hdig', hlen, hle'⟩⟩
      · rw [if_neg hlen] at h; cases h

theorem phoneMatchOK_shape {m : List Char} (h : phoneMatchOK m) :
    ∃ c ds, m = c :: ds ∧ (c = '+' ∨ c.isDigit = true) ∧
      (∀ d ∈ ds, d.isDigit = true) ∧ 10 ≤ m.length := by
  rcases h with ⟨ds, rfl, hds, h10, _⟩ | ⟨hds, h10, _⟩
  · exact ⟨'+', ds, rfl, Or.inl rfl, hds, by simpa using Nat.le_succ_of_le h10⟩
  · cases m with
    | nil => simp at h10
    | cons c ds =>
      exact ⟨c, ds, rfl, Or.inr (hds c (by simp)),
        fun d hd => hds d (List.mem_cons_of_mem c hd), h10⟩

theorem scanPhonesAux_nil_fuel (fuel : Nat) : scanPhonesAux fuel [] = [] := by
  cases fuel <;> rfl

theorem scanPhonesAux_cons_none {f : Nat} {c : Char} {t : List Char}
    (h : tryMatchPhone (c :: t) = none) :
    scanPhonesAux (f + 1) (c :: t) = scanPhonesAux f t := by
  simp [scanPhonesAux, h]

theorem scanPhonesAux_cons_some {f : Nat} {c : Char} {t m r : List Char}
    (h : tryMatchPhone (c :: t) = some (m, r)) :
    scanPhonesAux (f + 1) (c :: t) = m :: scanPhonesAux f r := by
  simp [scanPhonesAux, h]

theorem scanPhonesAux_fuel : ∀ (f₁ : Nat) {f₂ : Nat} {l : List Char},
    l.length ≤ f₁ → l.length ≤ f₂ → scanPhonesAux f₁ l = scanPhonesAux f₂ l := by
  intro f₁
  induction f₁ with
  | zero =>
    intro f₂ l h1 _
    have hl : l = [] := List.eq_nil_of_length_eq_zero (Nat.le_zero.mp h1)
    subst hl
    rw [scanPhonesAux_nil_fuel, scanPhonesAux_nil_fuel]
  | succ f ih =>
    intro f₂ l h1 h2
    cases l with
    | nil => rw [scanPhonesAux_nil_fuel, scanPhonesAux_nil_fuel]
    | cons c t =>
      cases f₂ with
      | zero => simp at h2
      | succ g =>
        have h1' : t.length ≤ f := Nat.le_of_succ_le_succ (by simpa using h1)
        have h2' : t.length ≤ g := Nat.le_of_succ_le_succ (by simpa using h2)
        cases hm : tryMatchPhone (c :: t) with
        | none =>
          rw [scanPhonesAux_cons_none hm, scanPhonesAux_cons_none hm]
          exact ih h1' h2'
        | some pr =>
          obtain ⟨m, r⟩ := pr
          obtain ⟨heq, hok⟩ := tryMatchPhone_some hm
          obtain ⟨c0, ds, hm0, _, _, hlen10⟩ := phoneMatchOK_shape hok
          have hr : r.length ≤ t.length := by
            have hl := congrArg List.length heq
            rw [List.length_append] at hl
            simp only [List.length_cons] at hl
            omega
          rw [scanPhonesAux_cons_some hm, scanPhonesAux_cons_some hm]
          rw [ih (le_trans hr h1') (le_trans hr h2')]

theorem scanPhonesAux_sound : ∀ (fuel : Nat) {l m : List Char},
    m ∈ scanPhonesAux fuel l → phoneMatchOK m := by
  intro fuel
  induction fuel with
  | zero => intro l m h; rw [scanPhonesAux] at h; cases h
  | succ f ih =>
    intro l m h
    cases l with
    | nil => rw [scanPhonesAux_nil_fuel] at h; cases h
    | cons c t =>
      cases hm : tryMatchPhone (c :: t) with
      | none =>
        rw [scanPhonesAux_cons_none hm] at h
        exact ih h
      | some pr =>
        obtain ⟨m0, r⟩ := pr
        rw [scanPhonesAux_cons_some hm] at h
        rcases List.mem_cons.mp h with rfl | h
        · exact (tryMatchPhone_some hm).2
        · exact ih h

theorem scanPhonesAux_skip : ∀ (fuel : Nat) {pre rest : List Char},
    pre.length + rest.length ≤ fuel →
    (∀ c, pre.getLast? = some c → c.isDigit = false ∧ c ≠ '+') →
    ∃ pref, scanPhonesAux fuel (pre ++ rest) =
      pref ++ scanPhonesAux rest.length rest := by
  intro fuel
  induction fuel with
  | zero =>
    intro pre rest hlen _
    have hp : pre = [] := List.eq_nil_of_length_eq_zero (by omega)
    have hr : rest = [] := List.eq_nil_of_length_eq_zero (by omega)
    subst hp; subst hr
    exact ⟨[], by rw [scanPhonesAux_nil_fuel]; rfl⟩
  | succ f ih =>
    intro pre rest hlen hsafe
    cases pre with
    | nil =>
      refine ⟨[], ?_⟩
      rw [List.nil_append, List.nil_append]
      exact scanPhonesAux_fuel (f + 1) (by simpa using hlen) (le_refl _)
    | cons c pre' =>
      rw [List.cons_append]
      cases hm : tryMatchPhone (c :: (pre' ++ rest)) with
      | none =>
        rw [scanPhonesAux_cons_none hm]
        apply ih
        · simp only [List.length_cons] at hlen
          omega
        · intro d hd
          apply hsafe d
          cases pre' with
          | nil => cases hd
          | cons p0 p1 => rw [List.getLast?_cons_cons]; exact hd
      | some pr =>
        obtain ⟨m, r⟩ := pr
        obtain ⟨heq, hok⟩ := tryMatchPhone_some hm
        obtain ⟨c0, ds, hmshape, hc0, hds, hlen10⟩ := phoneMatchOK_shape hok
        have heq' : (c :: pre') ++ rest = m ++ r := by simpa using heq
        -- the match cannot cross the boundary between `pre` and `rest`
        have hcross : ∃ c2, c :: pre' = m ++ c2 ∧ r = c2 ++ rest := by
          rcases List.append_eq_append_iff.mp heq' with ⟨a2, ha, hb⟩ | ⟨c2, hc, hd⟩
          · -- m = (c :: pre') ++ a2 : the match swallows all of pre and beyond
            cases a2 with
            | nil => exact ⟨[], by simpa using ha.symm, by simpa using hb.symm⟩
            | cons a0 a1 =>
              exfalso
              rw [hmshape] at ha
              cases pre' with
              | nil =>
                -- pre = [c]; then c0 = c is a plus sign or digit, against safety
                have hc' : c0 = c := by
                  have := congrArg (fun l => l.headD ' ') ha
                  simpa using this
                have hs := hsafe c (by rfl)
                rcases hc0 with h | h
                · exact hs.2 (by rw [← hc', h])
                · rw [hc'] at h; rw [hs.1] at h; cases h
              | cons p0 p1 =>
                -- the last character of pre is a digit of the match, against safety
                have hlast : (p0 :: p1).getLast (by simp) ∈ ds := by
                  have hds_eq : ds = (p0 :: p1) ++ (a0 :: a1) := by
                    have := congrArg List.tail ha
                    simpa using this
                  rw [hds_eq]
                  exact List.mem_append_left _ (List.getLast_mem _)
                have hs := hsafe ((p0 :: p1).getLast (by simp)) (by
                  rw [List.getLast?_cons_cons]
                  exact List.getLast?_eq_getLast _ _)
                exact absurd (hds _ hlast) (by rw [hs.1]; simp)
          · exact ⟨c2, hc, hd⟩
        obtain ⟨c2, hpre_eq, hr_eq⟩ := hcross
        rw [scanPhonesAux_cons_some hm, hr_eq]
        have hm_len : 1 ≤ m.length := by omega
        have hlen2 : c2.length + rest.length ≤ f := by
          have hl2 := congrArg List.length hpre_eq
          rw [List.length_append] at hl2
          simp only [List.length_cons] at hl2 hlen
          omega
        have hsafe2 : ∀ d, c2.getLast? = some d → d.isDigit = false ∧ d ≠ '+' := by
          intro d hd
          apply hsafe d
          rw [hpre_eq, List.getLast?_append, hd]
          rfl
        obtain ⟨pref', hpref⟩ := ih hlen2 hsafe2
        exact ⟨m :: pref', by rw [hpref, List.cons_append]⟩

theorem tryMatchPhone_digit_run (run suf : List Char)
    (hd : ∀ c ∈ run, c.isDigit = true) (hlen : 13 ≤ run.length) :
    tryMatchPhone (run ++ suf) = some (run.take 12, run.drop 12 ++ suf) := by
  have h12 : (12 : Nat) ≤ run.length := by omega
  have htake : (run ++ suf).take 12 = run.take 12 := List.take_append_of_le_length h12
  have hdrop : (run ++ suf).drop 12 = run.drop 12 ++ suf := List.drop_append_of_le_length h12
  have hfull : takeDigitsUpTo 12 (run ++ suf) = ((run ++ suf).take 12, (run ++ suf).drop 12) := by
    apply takeDigitsUpTo_full
    · rw [List.length_append]; omega
    · intro d hd'
      rw [htake] at hd'
      exact hd d (List.take_subset 12 run hd')
  have hlen_take : ((run ++ suf).take 12).length = 12 := by
    rw [List.length_take, List.length_append]
    omega
  cases run with
  | nil => simp at hlen
  | cons c t =>
    have hc : c.isDigit = true := hd c (by simp)
    have hcp : c ≠ '+' := fun h => absurd hc (by rw [h]; decide)
    rw [List.cons_append] at hfull hlen_take ⊢
    rw [tryMatchPhone, if_neg hcp, hfull]
    rw [if_pos (by rw [hlen_take]; omega)]
    rw [← List.cons_append]
    rw [htake, hdrop]

/-! ### The email scanner -/

theorem hasInnerAt_nil : hasInnerAt [] = false := rfl

theorem tryMatchEmail_none_space {c : Char} {t : List Char} (hc : isSpaceCh c = true) :
    tryMatchEmail (c :: t) = none := by
  unfold tryMatchEmail
  rw [List.takeWhile_cons]
  simp [hc, hasInnerAt_nil]

theorem tryMatchEmail_some : ∀ {l m r : List Char}, tryMatchEmail l = some (m, r) →
    m = l.takeWhile (fun c => !(isSpaceCh c)) ∧ hasInnerAt m = true ∧
      r = l.drop m.length := by
  intro l m r h
  unfold tryMatchEmail at h
  by_cases hin : hasInnerAt (l.takeWhile (fun c => !(isSpaceCh c))) = true
  · rw [if_pos hin] at h
    injection h with h2
    injection h2 with hm hr
    subst hm; subst hr
    exact ⟨rfl, hin, rfl⟩
  · rw [if_neg hin] at h; cases h

theorem emailMatchOK_of_hasInnerAt {m : List Char}
    (hin : hasInnerAt m = true) (hns : ∀ c ∈ m, isSpaceCh c = false) :
    emailMatchOK m := by
  have hmem : '@' ∈ (m.drop 1).dropLast := List.elem_iff.mp hin
  obtain ⟨s, t, hst⟩ := List.append_of_mem hmem
  cases m with
  | nil => simp at hmem
  | cons h0 tl =>
    have htl : tl.dropLast = s ++ '@' :: t := by simpa using hst
    have htl_ne : tl ≠ [] := by
      intro h; subst h; simp at htl
    have hdecomp : tl = (s ++ '@' :: t) ++ [tl.getLast htl_ne] := by
      rw [← htl]
      exact (List.dropLast_append_getLast htl_ne).symm
    refine ⟨h0 :: s, t ++ [tl.getLast htl_ne], ?_, by simp, by simp, hns⟩
    rw [List.cons_append]
    congr 1
    exact hdecomp.trans (by simp)

theorem scanEmailsAux_nil_fuel (fuel : Nat) : scanEmailsAux fuel [] = [] := by
  cases fuel <;> rfl

theorem scanEmailsAux_cons_none {f : Nat} {c : Char} {t : List Char}
    (h : tryMatchEmail (c :: t) = none) :
    scanEmailsAux (f + 1) (c :: t) = scanEmailsAux f t := by
  simp [scanEmailsAux, h]

theorem scanEmailsAux_cons_some {f : Nat} {c : Char} {t m r : List Char}
    (h : tryMatchEmail (c :: t) = some (m, r)) :
    scanEmailsAux (f + 1) (c :: t) = m :: scanEmailsAux f r := by
  simp [scanEmailsAux, h]

theorem scanEmailsAux_sound : ∀ (fuel : Nat) {l m : List Char},
    m ∈ scanEmailsAux fuel l → emailMatchOK m := by
  intro fuel
  induction fuel with
  | zero => intro l m h; rw [scanEmailsAux] at h; cases h
  | succ f ih =>
    intro l m h
    cases l with
    | nil => rw [scanEmailsAux_nil_fuel] at h; cases h
    | cons c t =>
      cases hm : tryMatchEmail (c :: t) with
      | none =>
        rw [scanEmailsAux_cons_none hm] at h
        exact ih h
      | some pr =>
        obtain ⟨m0, r⟩ := pr
        rw [scanEmailsAux_cons_some hm] at h
        rcases List.mem_cons.mp h with rfl | h
        · obtain ⟨htok, hin, _⟩ := tryMatchEmail_some hm
          apply emailMatchOK_of_hasInnerAt hin
          intro d hd
          rw [htok] at hd
          have := List.mem_takeWhile_imp hd
          simpa using this
        · exact ih h

theorem scanEmailsAux_all_space : ∀ (fuel : Nat) {l : List Char},
    (∀ c ∈ l, isSpaceCh c = true) → scanEmailsAux fuel l = [] := by
  intro fuel
  induction fuel with
  | zero => intro l _; rfl
  | succ f ih =>
    intro l hall
    cases l with
    | nil => rfl
    | cons c t =>
      rw [scanEmailsAux_cons_none (tryMatchEmail_none_space (hall c (by simp)))]
      exact ih (fun d hd => hall d (List.mem_cons_of_mem c hd))

theorem scanPhonesAux_all_newline : ∀ (fuel : Nat) {l : List Char},
    (∀ c ∈ l, c = '\n') → scanPhonesAux fuel l = [] := by
  intro fuel
  induction fuel with
  | zero => intro l _; rfl
  | succ f ih =>
    intro l hall
    cases l with
    | nil => rfl
    | cons c t =>
      have hc : c = '\n' := hall c (by simp)
      have h1 : c.isDigit = false := by rw [hc]; decide
      have h2 : c ≠ '+' := by rw [hc]; decide
      rw [scanPhonesAux_cons_none (tryMatchPhone_none h1 h2)]
      exact ih (fun d hd => hall d (List.mem_cons_of_mem c hd))

/-! ### The CSV store and the upload pipeline -/

theorem colType_obj_of_stable {entries : List String} {s0 : String}
    (h0 : s0 ∈ entries) (hst : stableText s0) : colType entries = ColTy.obj := by
  obtain ⟨hna, hnum, hbool⟩ := hst
  have hv : s0 ∈ entries.filter (fun s => !(decide (s ∈ naValues))) :=
    List.mem_filter.mpr ⟨h0, by simp [hna]⟩
  have h1 : ¬((entries.filter (fun s => !(decide (s ∈ naValues)))).isEmpty = true) := by
    intro hemp
    rw [List.isEmpty_iff] at hemp
    rw [hemp] at hv
    cases hv
  have h2 : ¬((entries.filter (fun s => !(decide (s ∈ naValues)))).all pdNumericText = true) := by
    intro hall
    have := List.all_eq_true.mp hall s0 hv
    rw [hnum] at this
    cases this
  have h3 : ¬((entries.filter (fun s => !(decide (s ∈ naValues)))).all pdBoolText = true) := by
    intro hall
    have := List.all_eq_true.mp hall s0 hv
    rw [hbool] at this
    cases this
  simp only [colType]
  rw [if_neg h1, if_neg h2, if_neg h3]

theorem persistRow_entries {row : TableRow} (h : ∀ c ∈ row, cellStable c) :
    ∀ s ∈ persistRow row, s ∈ naValues ∨ stableText s := by
  intro s hs
  unfold persistRow at hs
  rw [List.mem_map] at hs
  obtain ⟨c, hcr, hce⟩ := hs
  subst hce
  have hc := h c hcr
  cases c with
  | na => exact Or.inl (by show ("" : String) ∈ naValues; decide)
  | str s0 => exact Or.inr hc
  | intval n => exact hc.elim
  | floatval t => exact hc.elim
  | boolval b => exact hc.elim

theorem persistRow_reload : ∀ {row : TableRow}, (∀ c ∈ row, cellStable c) →
    (persistRow row).map
      (fun s => if s ∈ naValues then Cell.na else Cell.str s) = row := by
  intro row
  induction row with
  | nil => intro _; rfl
  | cons c cs ih =>
    intro h
    have hc := h c (by simp)
    show (if persistCell c ∈ naValues then Cell.na else Cell.str (persistCell c)) ::
      (persistRow cs).map (fun s => if s ∈ naValues then Cell.na else Cell.str s) = c :: cs
    congr 1
    · cases c with
      | na =>
        show (if ("" : String) ∈ naValues then Cell.na else Cell.str "") = Cell.na
        rw [if_pos (by decide)]
      | str s0 =>
        obtain ⟨hna, _, _⟩ := hc
        show (if s0 ∈ naValues then Cell.na else Cell.str s0) = Cell.str s0
        rw [if_neg hna]
      | intval n => exact hc.elim
      | floatval t => exact hc.elim
      | boolval b => exact hc.elim
    · exact ih (fun d hd => h d (List.mem_cons_of_mem c hd))

theorem loadRowAt_stable : ∀ (rest : List String) (j : Nat) (f : StoredTable)
    (row : List String), row ∈ f → row.drop j = rest →
    (∀ s ∈ rest, s ∈ naValues ∨ stableText s) →
    loadRowAt f j rest =
      rest.map (fun s => if s ∈ naValues then Cell.na else Cell.str s) := by
  intro rest
  induction rest with
  | nil => intro j f row _ _ _; rfl
  | cons s rest' ih =>
    intro j f row hrowf hdrop hst
    show loadEntry (colType (colEntries f j)) s :: loadRowAt f (j + 1) rest' = _
    rw [List.map_cons]
    congr 1
    · by_cases hna : s ∈ naValues
      · rw [if_pos hna]
        unfold loadEntry
        rw [if_pos hna]
      · rw [if_neg hna]
        rcases hst s (by simp) with h | h
        · exact absurd h hna
        have hget : row.getD j "" = s := by
          rw [List.getD_eq_getElem?_getD]
          have hd0 : (row.drop j)[0]? = row[j + 0]? := List.getElem?_drop row j 0
          rw [hdrop] at hd0
          simp only [List.getElem?_cons_zero, Nat.add_zero] at hd0
          rw [← hd0]
          rfl
        have hmem : s ∈ colEntries f j := by
          unfold colEntries
          rw [← hget]
          exact List.mem_map_of_mem _ hrowf
        rw [colType_obj_of_stable hmem h]
        unfold loadEntry
        rw [if_neg hna]
    · apply ih (j + 1) f row hrowf
      · rw [← List.drop_drop, hdrop]
        rfl
      · intro u hu
        exact hst u (List.mem_cons_of_mem s hu)

theorem loadTable_persistTable : ∀ {t : Table},
    (∀ row ∈ t, ∀ c ∈ row, cellStable c) → loadTable (persistTable t) = t := by
  intro t h
  have hrows : ∀ row ∈ t, loadRowAt (persistTable t) 0 (persistRow row) = row := by
    intro row hrow
    have hmem : persistRow row ∈ persistTable t := List.mem_map_of_mem _ hrow
    rw [loadRowAt_stable (persistRow row) 0 (persistTable t) (persistRow row) hmem
      (List.drop_zero _) (persistRow_entries (h row hrow))]
    exact persistRow_reload (h row hrow)
  show (persistTable t).map (loadRowAt (persistTable t) 0) = t
  unfold persistTable
  rw [List.map_map]
  calc t.map (loadRowAt (t.map persistRow) 0 ∘ persistRow)
      = t.map id := List.map_congr_left (fun row hrow => by
        show loadRowAt (t.map persistRow) 0 (persistRow row) = row
        exact hrows row hrow)
    _ = t := List.map_id t

theorem recordToRow_stable {r : ParsedRecord} (h : recordStable r) :
    ∀ c ∈ recordToRow r, cellStable c := by
  obtain ⟨h1, h2, h3, h4, h5, h6, h7⟩ := h
  intro c hc
  simp only [recordToRow, List.mem_cons, List.not_mem_nil, or_false] at hc
  rcases hc with rfl | rfl | rfl | rfl | rfl | rfl | rfl <;> assumption

theorem dfCombinedStep_priorFile : ∀ {prior : List ParsedRecord} {r : ParsedRecord},
    (∀ x ∈ prior, recordStable x) →
    dfCombinedStep (priorFile prior) r = (prior ++ [r]).map recordToRow := by
  intro prior r h
  cases prior with
  | nil => rfl
  | cons p ps =>
    show mergeTable (some (loadTable (persistTable ((p :: ps).map recordToRow))))
      (recordToRow r) = _
    rw [loadTable_persistTable (fun row hrow => by
      rw [List.mem_map] at hrow
      obtain ⟨rec, hrec, hre⟩ := hrow
      subst hre
      exact recordToRow_stable (h rec hrec))]
    show (p :: ps).map recordToRow ++ [recordToRow r] = ((p :: ps) ++ [r]).map recordToRow
    rw [List.map_append]
    rfl

theorem uploadStep_priorFile {prior : List ParsedRecord} {r : ParsedRecord}
    (h : ∀ x ∈ prior, recordStable x) :
    uploadStep (priorFile prior) r = priorFile (prior ++ [r]) := by
  unfold uploadStep
  rw [dfCombinedStep_priorFile h]
  cases prior <;> rfl

theorem lastCombined_priorFile : ∀ {rs : List ParsedRecord} (prior : List ParsedRecord)
    {r : ParsedRecord},
    (∀ x ∈ prior, recordStable x) → recordStable r → (∀ x ∈ rs, recordStable x) →
    lastCombined (priorFile prior) r rs = (prior ++ r :: rs).map recordToRow := by
  intro rs
  induction rs with
  | nil =>
    intro prior r hp _ _
    show dfCombinedStep (priorFile prior) r = _
    rw [dfCombinedStep_priorFile hp]
  | cons r2 rs' ih =>
    intro prior r hp hr hrs
    show lastCombined (uploadStep (priorFile prior) r) r2 rs' = _
    rw [uploadStep_priorFile hp]
    rw [ih (prior ++ [r]) (fun x hx => by
        rcases List.mem_append.mp hx with hx | hx
        · exact hp x hx
        · simp only [List.mem_singleton] at hx; subst hx; exact hr)
      (hrs r2 (by simp))
      (fun x hx => hrs x (List.mem_cons_of_mem r2 hx))]
    simp

theorem lastCombined_length : ∀ (rs : List ParsedRecord) (f : Option StoredTable)
    (r : ParsedRecord), (lastCombined f r rs).length = fileRows f + rs.length + 1 := by
  intro rs
  induction rs with
  | nil =>
    intro f r
    show (dfCombinedStep f r).length = _
    cases f with
    | none => rfl
    | some t =>
      show (loadTable t ++ [recordToRow r]).length = t.length + 0 + 1
      rw [List.length_append]
      simp [loadTable]
  | cons r2 rs' ih =>
    intro f r
    show (lastCombined (uploadStep f r) r2 rs').length = _
    rw [ih]
    have hstep : fileRows (uploadStep f r) = fileRows f + 1 := by
      cases f with
      | none => rfl
      | some t =>
        show (persistTable (loadTable t ++ [recordToRow r])).length = t.length + 1
        unfold persistTable
        rw [List.length_map, List.length_append]
        simp [loadTable]
    rw [hstep]
    simp only [List.length_cons]
    omega

/-! ### Extraction on a document with no matching content -/

theorem personNames_eq_nil {a : NLPAnalysis} (h : ∀ e ∈ a.ents, e.2 ≠ "PERSON") :
    personNames a = [] := by
  unfold personNames
  rw [List.filter_eq_nil_iff.mpr (fun e he => by
    simp only [beq_iff_eq]
    exact h e he)]
  rfl

theorem lowerL_all_newline {l : List Char} (h : ∀ c ∈ l, c = '\n') :
    ∀ c ∈ lowerL l, c = '\n' := by
  intro c hc
  rw [lowerL, List.mem_map] at hc
  obtain ⟨d, hd, hde⟩ := hc
  rw [h d hd] at hde
  rw [← hde]
  rfl

theorem resumeDict_no_matches {text : String} {a : NLPAnalysis}
    (htext : ∀ c ∈ text.data, c = '\n')
    (hents : ∀ e ∈ a.ents, e.2 ≠ "PERSON")
    (hsents : ∀ s ∈ a.sents, containsSub s.data text.data = true) :
    resumeDict text a = ⟨"N/A", "", "", "", "", "", ""⟩ ∧
    displayRecord text a = ⟨"N/A", "N/A", "N/A", "N/A", "N/A", "N/A", "N/A"⟩ := by
  have hspace : ∀ c ∈ text.data, isSpaceCh c = true := fun c hc => by
    rw [htext c hc]; rfl
  have hnames : personNames a = [] := personNames_eq_nil hents
  have hemails : findEmails text = [] := by
    unfold findEmails
    rw [scanEmailsAux_all_space _ hspace]
    rfl
  have hphones : findPhones text = [] := by
    unfold findPhones
    rw [scanPhonesAux_all_newline _ htext]
    rfl
  have hlowtext : ∀ c ∈ lowerL text.data, c = '\n' := lowerL_all_newline htext
  have hwit : ∀ sk ∈ skillsVocab, ∃ c0 ∈ lowerL sk.data, c0 ≠ '\n' := by decide
  have hskills : foundSkills text = [] := by
    unfold foundSkills
    apply List.filter_eq_nil_iff.mpr
    intro sk hsk
    obtain ⟨c0, hc0, hc0ne⟩ := hwit sk hsk
    rw [containsSub_eq_false (lowerL sk.data) c0 hc0 hc0ne hlowtext]
    simp
  have hlines : ∀ line ∈ splitLines text.data, line = [] :=
    splitLines_all_newline htext
  have heduc : educationLines text = [] := by
    unfold educationLines
    rw [List.filter_eq_nil_iff.mpr (fun line hline => by
      rw [hlines line hline]
      decide)]
    rfl
  have hproj : projectsLines text = [] := by
    unfold projectsLines
    rw [List.filter_eq_nil_iff.mpr (fun line hline => by
      rw [hlines line hline]
      decide)]
    rfl
  have hprof : profileSentences a = [] := by
    unfold profileSentences
    rw [List.filter_eq_nil_iff.mpr (fun s hs => by
      have hsl : ∀ c ∈ lowerL s.data, c = '\n' :=
        lowerL_all_newline (fun c hc => htext c (mem_of_containsSub (hsents s hs) c hc))
      rw [containsSub_eq_false "passionate".data 'p' (by decide) (by decide) hsl,
        containsSub_eq_false "skilled".data 's' (by decide) (by decide) hsl]
      simp)]
    rfl
  constructor
  · unfold resumeDict
    rw [hnames, hemails, hphones, hskills, heduc, hproj, hprof]
    rfl
  · unfold displayRecord
    rw [hnames, hemails, hphones, hskills, heduc, hproj, hprof]
    rfl

/-! ### Claim theorems -/

/-- C1 fails as stated: the first upload's row of the MasterTable is
modified by the second upload — its "N/A" and "" cells (produced by an
upload of an empty document) are loaded back from the master CSV as
missing values, so the displayed first row after upload 2 differs from
the first row after upload 1. -/
theorem c1_counterexample :
    (masterAfter emptyUploadRecord [emptyUploadRecord]).head? ≠
      (masterAfter emptyUploadRecord []).head? := by
  decide

/-- C1 amended: the in-memory merge contract is exact — with no prior
table the result is the one-row table of the new record, otherwise the
prior rows in order with the new row appended — and after N uploads the
MasterTable has exactly N rows; the append-only "row i unmodified"
clause holds provided every field of every uploaded record is stable
text, i.e. not a pandas default NA marker (such as "" or "N/A"), not
numeric text (which dtype inference coerces, e.g. a lone phone
"+919876543210" reloads as the integer 919876543210), and not a boolean
literal: then the table after the last upload is exactly the uploaded
records' rows in order.  Fields outside that set are converted by the
reload the next upload performs. -/
theorem c1_merge_append_only_amended (t : Table) (row : TableRow)
    (r : ParsedRecord) (rs : List ParsedRecord) :
    mergeTable none row = [row] ∧
    mergeTable (some t) row = t ++ [row] ∧
    (masterAfter r rs).length = rs.length + 1 ∧
    (recordStable r → (∀ x ∈ rs, recordStable x) →
      masterAfter r rs = (r :: rs).map recordToRow) := by
  refine ⟨rfl, rfl, ?_, ?_⟩
  · have h := lastCombined_length rs none r
    simpa [masterAfter, fileRows] using h
  · intro hr hrs
    have h := lastCombined_priorFile [] (by simp) hr hrs
    simpa [masterAfter] using h

/-- Witness for the amended C1 on two stable uploads. -/
theorem c1_merge_append_only_amended_witness :
    masterAfter sampleRecordA [sampleRecordB] =
      [recordToRow sampleRecordA, recordToRow sampleRecordB] :=
  (c1_merge_append_only_amended [] [] sampleRecordA [sampleRecordB]).2.2.2
    (by decide) (by decide)

/-- C2 fails as stated: merging the empty-upload record into an absent
table, persisting it, and freshly loading the store yields a row of
missing values, not the row that was merged, because "" and "N/A" are
among pandas' default NA markers. -/
theorem c2_counterexample :
    loadTable (persistTable (mergeTable none (recordToRow emptyUploadRecord))) ≠
      mergeTable none (recordToRow emptyUploadRecord) := by
  decide

/-- C2 amended: persisting the merged table and freshly loading the store
reproduces exactly the same row sequence and column values whenever every
cell is stable — a missing value, or a string that is not a pandas
default NA marker, not numeric text, and not a boolean literal.  Cells
outside that set are converted: an NA marker such as "" or "N/A" loads
back as missing, and dtype inference coerces a numeric column, so a cell
"+919876543210" reloads as the integer 919876543210 and a cell
"0123456789" does not reload as its own text (its leading zero is
dropped on the next write). -/
theorem c2_roundtrip_amended (t : Option Table) (r : TableRow)
    (h : ∀ row ∈ mergeTable t r, ∀ c ∈ row, cellStable c) :
    loadTable (persistTable (mergeTable t r)) = mergeTable t r ∧
    loadTable (persistTable [[Cell.str "+919876543210"]]) =
      [[Cell.intval 919876543210]] ∧
    loadTable (persistTable [[Cell.str "0123456789"]]) ≠ [[Cell.str "0123456789"]] :=
  ⟨loadTable_persistTable h, by decide, by decide⟩

/-- Witness for the amended C2 on a stable record. -/
theorem c2_roundtrip_amended_witness :
    loadTable (persistTable (mergeTable none (recordToRow sampleRecordA))) =
      mergeTable none (recordToRow sampleRecordA) :=
  (c2_roundtrip_amended none (recordToRow sampleRecordA) (by decide)).1

/-- C3 fails as stated: on an upload with no person entity the persisted
record's Name field is "N/A", the display fallback of line 80, not the
empty string the claim requires of all seven persisted fields. -/
theorem c3_counterexample :
    personNames ⟨[], []⟩ = [] ∧ emptyUploadRecord.name = "N/A" ∧
      emptyUploadRecord.name ≠ "" := by
  refine ⟨rfl, by decide, by decide⟩

/-- C3 amended: a group with no match is displayed as "N/A" and persisted
as the empty string for the six joined fields (Emails, Phones, Skills,
Education, Projects, Profile), while the Name fallback is "N/A" in both
the displayed and the persisted record; no field is ever null or absent
(every `ParsedRecord` field is a total string). -/
theorem c3_sentinels_amended (text : String) (a : NLPAnalysis) :
    (personNames a = [] →
      (resumeDict text a).name = "N/A" ∧ (displayRecord text a).name = "N/A") ∧
    (findEmails text = [] →
      (resumeDict text a).emails = "" ∧ (displayRecord text a).emails = "N/A") ∧
    (findPhones text = [] →
      (resumeDict text a).phones = "" ∧ (displayRecord text a).phones = "N/A") ∧
    (foundSkills text = [] →
      (resumeDict text a).skills = "" ∧ (displayRecord text a).skills = "N/A") ∧
    (educationLines text = [] →
      (resumeDict text a).education = "" ∧ (displayRecord text a).education = "N/A") ∧
    (projectsLines text = [] →
      (resumeDict text a).projects = "" ∧ (displayRecord text a).projects = "N/A") ∧
    (profileSentences a = [] →
      (resumeDict text a).profile = "" ∧ (displayRecord text a).profile = "N/A") := by
  refine ⟨?_, ?_, ?_, ?_, ?_, ?_, ?_⟩ <;> intro h <;>
    simp [resumeDict, displayRecord, h]

/-- Witness for the amended C3 on the empty upload. -/
theorem c3_sentinels_amended_witness :
    (resumeDict "" ⟨[], []⟩).emails = "" ∧ (displayRecord "" ⟨[], []⟩).emails = "N/A" :=
  (c3_sentinels_amended "" ⟨[], []⟩).2.1 (by decide)

/-- C4: Parse-failure atomicity: when the uploaded bytes cannot be opened
as a well-formed document the upload produces no record and the
previously persisted master CSV file is returned untouched (the program
stops before any read, append, or write of the store). -/
theorem c4_parse_failure_atomic (e : String) (file : Option StoredTable) :
    runUpload (Except.error e) file = (none, file) := rfl

/-- C5: Phone extraction: the specification's example joins to
"9876543210, +919876543210", a bare 9-digit run yields nothing, and every
string the phone scan returns is an optional leading plus sign followed
by 10 to 12 consecutive digits, collected left to right. -/
theorem c5_phone_extraction :
    String.intercalate ", " (findPhones "call 9876543210 or +919876543210 ext 12") =
      "9876543210, +919876543210" ∧
    findPhones "ring 987654321 now" = [] ∧
    ∀ (text s : String), s ∈ findPhones text → phoneMatchOK s.data := by
  refine ⟨by decide, by decide, ?_⟩
  intro text s hs
  unfold findPhones at hs
  rw [List.mem_map] at hs
  obtain ⟨m, hm, hms⟩ := hs
  subst hms
  exact scanPhonesAux_sound _ hm

/-- Witness for C5 at a concrete member of the scan's output. -/
theorem c5_phone_extraction_witness :
    "9876543210" ∈ findPhones "call 9876543210 or +919876543210 ext 12" ∧
    phoneMatchOK ("9876543210" : String).data :=
  ⟨by decide, c5_phone_extraction.2.2 "call 9876543210 or +919876543210 ext 12"
    "9876543210" (by decide)⟩

/-- C6: Skills extraction: membership in the extracted skill list is
exactly case-insensitive substring containment of a vocabulary entry in
the document text, the output is a sublist of the vocabulary (hence in
vocabulary order), every skill occurs at most once, and a text containing
"python" and "PYTHON" yields "Python" exactly once. -/
theorem c6_skills_extraction :
    (∀ (text sk : String), sk ∈ foundSkills text ↔
      sk ∈ skillsVocab ∧ containsSub (lowerL sk.data) (lowerL text.data) = true) ∧
    (∀ text : String, (foundSkills text).Sublist skillsVocab) ∧
    (∀ (text sk : String), List.count sk (foundSkills text) ≤ 1) ∧
    List.count "Python" (foundSkills "I know python and PYTHON") = 1 := by
  refine ⟨?_, ?_, ?_, by decide⟩
  · intro text sk
    unfold foundSkills
    rw [List.mem_filter]
  · intro text
    exact List.filter_sublist _
  · intro text sk
    have hnd : (foundSkills text).Nodup :=
      List.Nodup.sublist (List.filter_sublist _) (by decide)
    exact List.nodup_iff_count_le_one.mp hnd sk

/-- Witness for C6: the concrete membership obtained from the theorem. -/
theorem c6_skills_extraction_witness :
    "Python" ∈ foundSkills "I know python and PYTHON" :=
  (c6_skills_extraction.1 "I know python and PYTHON" "Python").mpr
    ⟨by decide, by decide⟩

/-- C7: Email extraction: on the specification's example the scan joins
to "a.b@x.com, c@d", and every string the email scan returns consists of
one or more non-whitespace characters, an at-sign, and one or more
non-whitespace characters. -/
theorem c7_email_extraction :
    String.intercalate ", " (findEmails "contact me at a.b@x.com or c@d") =
      "a.b@x.com, c@d" ∧
    ∀ (text s : String), s ∈ findEmails text → emailMatchOK s.data := by
  refine ⟨by decide, ?_⟩
  intro text s hs
  unfold findEmails at hs
  rw [List.mem_map] at hs
  obtain ⟨m, hm, hms⟩ := hs
  subst hms
  exact scanEmailsAux_sound _ hm

/-- Witness for C7 at a concrete member of the scan's output. -/
theorem c7_email_extraction_witness :
    "c@d" ∈ findEmails "contact me at a.b@x.com or c@d" ∧
    emailMatchOK ("c@d" : String).data :=
  ⟨by decide, c7_email_extraction.2 "contact me at a.b@x.com or c@d" "c@d" (by decide)⟩

/-- C8: Empty-document extraction: for a document with zero pages or with
all-empty page text, given an NLP analysis that reports no person entity
and whose sentence spans lie inside the assembled text, every extracted
field equals its empty-value sentinel: "N/A" throughout in the displayed
record, and in the persisted record the empty string for the six joined
fields with the "N/A" Name fallback. -/
theorem c8_empty_document (pages : List String) (a : NLPAnalysis)
    (hpages : ∀ p ∈ pages, p = "")
    (hents : ∀ e ∈ a.ents, e.2 ≠ "PERSON")
    (hsents : ∀ s ∈ a.sents, containsSub s.data (assembleChars pages) = true) :
    resumeDict (assembleText pages) a = ⟨"N/A", "", "", "", "", "", ""⟩ ∧
    displayRecord (assembleText pages) a =
      ⟨"N/A", "N/A", "N/A", "N/A", "N/A", "N/A", "N/A"⟩ := by
  apply resumeDict_no_matches
  · intro c hc
    exact assembleChars_all_newline hpages c hc
  · exact hents
  · exact hsents

/-- Witness for C8 on a two-page document with empty page text. -/
theorem c8_empty_document_witness :
    resumeDict (assembleText ["", ""]) ⟨[], []⟩ = ⟨"N/A", "", "", "", "", "", ""⟩ ∧
    displayRecord (assembleText ["", ""]) ⟨[], []⟩ =
      ⟨"N/A", "N/A", "N/A", "N/A", "N/A", "N/A", "N/A"⟩ :=
  c8_empty_document ["", ""] ⟨[], []⟩ (by decide) (by simp) (by simp)

/-- C9 fails as stated: "+1234567890123" contains the 13-digit run
"1234567890123", yet Phones holds only "+123456789012"; the bare first
12 digits of the run are not a member of the result. -/
theorem c9_counterexample :
    (∀ c ∈ ("1234567890123" : String).data, c.isDigit = true) ∧
    13 ≤ ("1234567890123" : String).data.length ∧
    findPhones "+1234567890123" = ["+123456789012"] ∧
    "123456789012" ∉ findPhones "+1234567890123" :=
  ⟨by decide, by decide, by decide, by decide⟩

/-- C9 amended: for every run of at least 13 consecutive digits whose
preceding character, if any, is neither a digit (maximality on the left)
nor a plus sign, Phones includes the first 12 digits of the run as a
match; when a plus sign immediately precedes the run the scan instead
emits that plus sign followed by the first 12 digits, as the
counterexample shows. -/
theorem c9_long_run_amended (pre run suf : List Char)
    (hd : ∀ c ∈ run, c.isDigit = true) (hlen : 13 ≤ run.length)
    (hsafe : ∀ c, pre.getLast? = some c → c.isDigit = false ∧ c ≠ '+') :
    String.mk (run.take 12) ∈ findPhones (String.mk (pre ++ run ++ suf)) := by
  show String.mk (run.take 12) ∈
    (scanPhonesAux (pre ++ run ++ suf).length (pre ++ run ++ suf)).map String.mk
  rw [List.append_assoc]
  obtain ⟨pref, hpref⟩ := scanPhonesAux_skip (pre ++ (run ++ suf)).length
    (Nat.le_of_eq (List.length_append pre (run ++ suf)).symm) hsafe
  rw [hpref]
  apply List.mem_map_of_mem
  apply List.mem_append_right
  cases run with
  | nil => simp at hlen
  | cons c t =>
    have hm' : tryMatchPhone (c :: (t ++ suf)) =
        some ((c :: t).take 12, (c :: t).drop 12 ++ suf) := by
      have h := tryMatchPhone_digit_run (c :: t) suf hd hlen
      rwa [List.cons_append] at h
    rw [List.cons_append, List.length_cons, scanPhonesAux_cons_some hm']
    exact List.mem_cons_self _ _

/-- Witness for the amended C9: the 13-digit run after a letter. -/
theorem c9_long_run_amended_witness :
    ("123456789012" : String) ∈ findPhones "x1234567890123" := by
  have hsafe : ∀ c, ("x" : String).data.getLast? = some c →
      c.isDigit = false ∧ c ≠ '+' := by
    intro c hc
    have h1 : some 'x' = some c := hc
    injection h1 with h2
    rw [← h2]
    exact ⟨by decide, by decide⟩
  have h := c9_long_run_amended ("x" : String).data ("1234567890123" : String).data []
    (by decide) (by decide) hsafe
  have h1 : String.mk (("1234567890123" : String).data.take 12) = "123456789012" := by decide
  have h2 : String.mk (("x" : String).data ++ ("1234567890123" : String).data ++ []) =
      "x1234567890123" := by decide
  rw [h1, h2] at h
  exact h

/-- C10: the Education and Projects line filters are independent: every
physical line of the document containing both an education keyword and a
projects keyword appears, trimmed, both in the Education lines and in the
Projects lines; neither filter removes a line because the other filter
matched it. -/
theorem c10_line_filters_independent (text : String) (line : List Char)
    (hline : line ∈ splitLines text.data)
    (hedu : anyKw educationKeywords line = true)
    (hproj : anyKw projectsKeywords line = true) :
    String.mk (pyStrip line) ∈ educationLines text ∧
    String.mk (pyStrip line) ∈ projectsLines text := by
  constructor
  · unfold educationLines
    exact List.mem_map_of_mem _ (List.mem_filter.mpr ⟨hline, hedu⟩)
  · unfold projectsLines
    exact List.mem_map_of_mem _ (List.mem_filter.mpr ⟨hline, hproj⟩)

/-- Witness for C10 on a line holding both kinds of keyword. -/
theorem c10_line_filters_independent_witness :
    "My University Project" ∈ educationLines "Intro\n My University Project \nEnd" ∧
    "My University Project" ∈ projectsLines "Intro\n My University Project \nEnd" := by
  have h := c10_line_filters_independent "Intro\n My University Project \nEnd"
    (" My University Project " : String).data (by decide) (by decide) (by decide)
  have hs : String.mk (pyStrip (" My University Project " : String).data) =
      "My University Project" := by decide
  exact ⟨hs ▸ h.1, hs ▸ h.2⟩

end ResumeApp
